import Mathlib

/-!
Verification of the lodash-rs chain subsystem and collection helpers.

The Rust sources are shallowly embedded: `Vec<T>` becomes `List T`,
boxed closures become Lean functions, `Result<T>` becomes
`Except LodashError T`, and async futures (always awaited to completion,
sequentially, in the reference implementation) become their pure values.
-/

namespace LodashRs

/-- Embeds `LodashError` from src/utils/error.rs (all feature-gated
variants included). -/
inductive LodashError where
  | invalidInput (message : String)
  | typeConversion (src dst : String)
  | indexOutOfBounds (index size : Nat)
  | emptyCollection
  | invalidPredicate (message : String)
  | asyncError (message : String)
  | parallelError (message : String)
  | wasmError (message : String)
  | custom (message : String)
deriving DecidableEq, Repr

/-- `LodashError::invalid_input` constructor helper from src/utils/error.rs. -/
def LodashError.invalid_input (message : String) : LodashError :=
  LodashError.invalidInput message

/-- Embeds `Operation<T>` from src/chain/mod.rs: a deferred step of a
synchronous chain. -/
inductive Operation (T : Type) where
  | map (mapper : T → T)
  | filter (predicate : T → Bool)
  | take (n : Nat)
  | skip (n : Nat)
  | reverse

/-- Embeds `Chain<T>` from src/chain/mod.rs: source data plus the ordered
list of deferred operations. -/
structure Chain (T : Type) where
  data : List T
  operations : List (Operation T)

/-- `Chain::new` from src/chain/mod.rs. -/
def Chain.new (data : List T) : Chain T :=
  { data := data, operations := [] }

/-- `chain(data)` free function from src/chain/mod.rs. -/
def chain (data : List T) : Chain T :=
  Chain.new data

/-- `Chain::map`: pushes a Map operation (src/chain/mod.rs). -/
def Chain.map (c : Chain T) (mapper : T → T) : Chain T :=
  { c with operations := c.operations ++ [Operation.map mapper] }

/-- `Chain::filter`: pushes a Filter operation (src/chain/mod.rs). -/
def Chain.filter (c : Chain T) (predicate : T → Bool) : Chain T :=
  { c with operations := c.operations ++ [Operation.filter predicate] }

/-- `Chain::take`: pushes a Take operation (src/chain/mod.rs). -/
def Chain.take (c : Chain T) (n : Nat) : Chain T :=
  { c with operations := c.operations ++ [Operation.take n] }

/-- `Chain::skip`: pushes a Skip operation (src/chain/mod.rs). -/
def Chain.skip (c : Chain T) (n : Nat) : Chain T :=
  { c with operations := c.operations ++ [Operation.skip n] }

/-- `Chain::reverse`: pushes a Reverse operation (src/chain/mod.rs). -/
def Chain.reverse (c : Chain T) : Chain T :=
  { c with operations := c.operations ++ [Operation.reverse] }

/-- One iteration of the `for operation in self.operations` loop in
`Chain::value` (src/chain/mod.rs lines 240-264): `into_iter().map`,
`into_iter().filter`, `take(n)`, `skip(n)`, `Vec::reverse`. -/
def applyOp (result : List T) : Operation T → List T
  | Operation.map mapper => result.map mapper
  | Operation.filter predicate => result.filter predicate
  | Operation.take n => result.take n
  | Operation.skip n => result.drop n
  | Operation.reverse => result.reverse

/-- `Chain::value` from src/chain/mod.rs: folds the operation list, in
order, over the data. -/
def Chain.value (c : Chain T) : List T :=
  c.operations.foldl applyOp c.data

/-- Generic builder step: dispatches an `Operation` to the corresponding
builder method, modelling one chaining call. -/
def Chain.appendOp (c : Chain T) : Operation T → Chain T
  | Operation.map mapper => c.map mapper
  | Operation.filter predicate => c.filter predicate
  | Operation.take n => c.take n
  | Operation.skip n => c.skip n
  | Operation.reverse => c.reverse

/-- A chain built from source `S` by a sequence of builder calls, one per
listed operation, in order. -/
def buildChain (S : List T) (ops : List (Operation T)) : Chain T :=
  ops.foldl Chain.appendOp (Chain.new S)

/-- Modelled from the spec's words (spec.md section 4.1), for comparison
with `applyOp`: map sends element i to f(element i) keeping the length,
filter keeps exactly the predicate-true elements in relative order,
take keeps the first min(n, len) elements, skip drops the first
min(n, len) elements, reverse reverses the order. -/
def specStep (result : List T) : Operation T → List T
  | Operation.map mapper => List.ofFn fun i : Fin result.length => mapper (result.get i)
  | Operation.filter predicate => result.filter predicate
  | Operation.take n => result.take (min n result.length)
  | Operation.skip n => result.drop (min n result.length)
  | Operation.reverse => result.reverse

/-- Embeds `AsyncOperation<T>` from src/chain/mod.rs. The stored closures
return futures; since the reference evaluation awaits each future to
completion before the next begins, a future is embedded as its value. -/
inductive AsyncOperation (T : Type) where
  | mapAsync (mapper : T → T)
  | filterAsync (predicate : T → Bool)
  | take (n : Nat)
  | skip (n : Nat)
  | reverse

/-- Embeds `AsyncChain<T>` from src/chain/mod.rs. -/
structure AsyncChain (T : Type) where
  data : List T
  operations : List (AsyncOperation T)

/-- `AsyncChain::new` from src/chain/mod.rs. -/
def AsyncChain.new (data : List T) : AsyncChain T :=
  { data := data, operations := [] }

/-- `AsyncChain::map_async`: pushes a MapAsync operation (src/chain/mod.rs). -/
def AsyncChain.map_async (c : AsyncChain T) (mapper : T → T) : AsyncChain T :=
  { c with operations := c.operations ++ [AsyncOperation.mapAsync mapper] }

/-- `AsyncChain::filter_async`: pushes a FilterAsync operation
(src/chain/mod.rs). -/
def AsyncChain.filter_async (c : AsyncChain T) (predicate : T → Bool) : AsyncChain T :=
  { c with operations := c.operations ++ [AsyncOperation.filterAsync predicate] }

/-- The MapAsync inner loop of `AsyncChain::await` (src/chain/mod.rs
lines 383-390): starts from an empty `new_result` and pushes the awaited
mapped value of each element, in original order. -/
def awaitMapLoop (mapper : T → T) (acc : List T) : List T → List T
  | [] => acc
  | x :: xs => awaitMapLoop mapper (acc ++ [mapper x]) xs

/-- The FilterAsync inner loop of `AsyncChain::await` (src/chain/mod.rs
lines 391-399): pushes each element whose awaited predicate is true. -/
def awaitFilterLoop (predicate : T → Bool) (acc : List T) : List T → List T
  | [] => acc
  | x :: xs => awaitFilterLoop predicate (if predicate x then acc ++ [x] else acc) xs

/-- One iteration of the operation loop in `AsyncChain::await`
(src/chain/mod.rs lines 378-413). -/
def applyAsyncOp (result : List T) : AsyncOperation T → List T
  | AsyncOperation.mapAsync mapper => awaitMapLoop mapper [] result
  | AsyncOperation.filterAsync predicate => awaitFilterLoop predicate [] result
  | AsyncOperation.take n => result.take n
  | AsyncOperation.skip n => result.drop n
  | AsyncOperation.reverse => result.reverse

/-- `AsyncChain::await` from src/chain/mod.rs: folds the async operation
list, in order, over the data, awaiting each element sequentially. -/
def AsyncChain.awaitRun (c : AsyncChain T) : List T :=
  c.operations.foldl applyAsyncOp c.data

/-- `Vec::retain(|x| predicate(x))` as used by `ChainExecutor::execute`
(src/chain/executor.rs line 31): keeps, in place and in order, exactly the
elements for which the predicate returns true. -/
def retain (predicate : T → Bool) : List T → List T
  | [] => []
  | x :: xs => if predicate x then x :: retain predicate xs else retain predicate xs

/-- One iteration of the operation loop in `ChainExecutor::execute`
(src/chain/executor.rs lines 22-46); identical to `Chain::value` except
that Filter uses `Vec::retain`. -/
def execApplyOp (result : List T) : Operation T → List T
  | Operation.map mapper => result.map mapper
  | Operation.filter predicate => retain predicate result
  | Operation.take n => result.take n
  | Operation.skip n => result.drop n
  | Operation.reverse => result.reverse

/-- Embeds `ChainExecutor<T>` from src/chain/executor.rs. -/
structure ChainExecutor (T : Type) where
  chain : Chain T

/-- `ChainExecutor::new` from src/chain/executor.rs. -/
def ChainExecutor.new (c : Chain T) : ChainExecutor T :=
  { chain := c }

/-- `ChainExecutor::execute` from src/chain/executor.rs. -/
def ChainExecutor.execute (e : ChainExecutor T) : List T :=
  e.chain.operations.foldl execApplyOp e.chain.data

/-- The push loop of `execute_sequential` (src/utils/async_support.rs
lines 107-113): awaits the operation on each element in order, pushing
each result. -/
def seqPushLoop (operation : T → R) (acc : List R) : List T → List R
  | [] => acc
  | x :: xs => seqPushLoop operation (acc ++ [operation x]) xs

/-- `execute_sequential` from src/utils/async_support.rs lines 99-115. -/
def execute_sequential (items : List T) (operation : T → R) : Except LodashError (List R) :=
  Except.ok (seqPushLoop operation [] items)

/-- The chunk loop of `execute_with_concurrency`
(src/utils/async_support.rs lines 132-139): takes chunks of size
`concurrency`, joins the futures of one chunk, extends the results, and
recurses on the rest. Futures are awaited to completion, so joining a
chunk yields the operation mapped over the chunk in order. -/
def chunkedResults (operation : T → R) (concurrency : Nat) : List T → List R
  | [] => []
  | x :: xs =>
      ((x :: xs).take concurrency).map operation ++
        chunkedResults operation concurrency (xs.drop (concurrency - 1))
termination_by l => l.length
decreasing_by
  simp only [List.length_drop, List.length_cons]
  omega

/-- `execute_with_concurrency` from src/utils/async_support.rs lines
119-142: rejects a zero concurrency limit, otherwise processes the items
chunk by chunk. -/
def execute_with_concurrency (items : List T) (operation : T → R)
    (concurrency : Nat) : Except LodashError (List R) :=
  if concurrency = 0 then
    Except.error (LodashError.invalid_input "Concurrency must be greater than 0")
  else
    Except.ok (chunkedResults operation concurrency items)

/-- `every` from src/collection/query.rs lines 83-88:
`collection.iter().all(predicate)`. -/
def every (collection : List T) (predicate : T → Bool) : Bool :=
  collection.all predicate

/-- `some` from src/collection/query.rs lines 103-108:
`collection.iter().any(predicate)`. -/
def some (collection : List T) (predicate : T → Bool) : Bool :=
  collection.any predicate

/-- `filter` from src/collection/iteration.rs lines 81-90:
`collection.iter().filter(predicate).cloned().collect()`. -/
def filter (collection : List T) (predicate : T → Bool) : List T :=
  collection.filter predicate

/-- `partition` from src/collection/query.rs lines 152-169: one forward
pass pushing each element onto the truthy or the falsy vector. -/
def partition (collection : List T) (predicate : T → Bool) : List T × List T :=
  collection.foldl
    (fun acc item =>
      if predicate item then (acc.1 ++ [item], acc.2) else (acc.1, acc.2 ++ [item]))
    ([], [])

/-! ### Supporting lemmas -/

lemma take_min_eq (l : List T) (n : Nat) : l.take (min n l.length) = l.take n := by
  rcases Nat.le_total n l.length with h | h
  · rw [Nat.min_eq_left h]
  · rw [Nat.min_eq_right h, List.take_length, List.take_of_length_le h]

lemma drop_min_eq (l : List T) (n : Nat) : l.drop (min n l.length) = l.drop n := by
  rcases Nat.le_total n l.length with h | h
  · rw [Nat.min_eq_left h]
  · rw [Nat.min_eq_right h, List.drop_length, List.drop_of_length_le h]

lemma applyOp_eq_specStep (res : List T) (op : Operation T) :
    applyOp res op = specStep res op := by
  cases op with
  | map mapper =>
      show res.map mapper = List.ofFn fun i : Fin res.length => mapper (res.get i)
      conv_lhs => rw [← List.ofFn_get res]
      rw [List.map_ofFn]
      rfl
  | filter predicate => rfl
  | take n => exact (take_min_eq res n).symm
  | skip n => exact (drop_min_eq res n).symm
  | reverse => rfl

lemma appendOp_eq (c : Chain T) (op : Operation T) :
    Chain.appendOp c op = ⟨c.data, c.operations ++ [op]⟩ := by
  cases op <;> rfl

lemma buildChain_eq (S : List T) (ops : List (Operation T)) :
    buildChain S ops = ⟨S, ops⟩ := by
  have H : ∀ (rest : List (Operation T)) (acc : List (Operation T)),
      List.foldl Chain.appendOp ⟨S, acc⟩ rest = ⟨S, acc ++ rest⟩ := by
    intro rest
    induction rest with
    | nil => intro acc; simp
    | cons op ops ih =>
        intro acc
        rw [List.foldl_cons, appendOp_eq]
        simp only at ih ⊢
        rw [ih (acc ++ [op])]
        simp
  simpa using H ops []

lemma retain_eq_filter (predicate : T → Bool) (l : List T) :
    retain predicate l = l.filter predicate := by
  induction l with
  | nil => rfl
  | cons x xs ih =>
      rw [retain, List.filter_cons]
      by_cases h : predicate x
      · simp [h, ih]
      · simp [h, ih]

lemma execApplyOp_eq (res : List T) (op : Operation T) :
    execApplyOp res op = applyOp res op := by
  cases op with
  | filter predicate => exact retain_eq_filter predicate res
  | _ => rfl

lemma awaitMapLoop_eq (mapper : T → T) :
    ∀ (l acc : List T), awaitMapLoop mapper acc l = acc ++ l.map mapper := by
  intro l
  induction l with
  | nil => intro acc; simp [awaitMapLoop]
  | cons x xs ih => intro acc; rw [awaitMapLoop, ih]; simp

lemma awaitFilterLoop_eq (predicate : T → Bool) :
    ∀ (l acc : List T), awaitFilterLoop predicate acc l = acc ++ l.filter predicate := by
  intro l
  induction l with
  | nil => intro acc; simp [awaitFilterLoop]
  | cons x xs ih =>
      intro acc
      rw [awaitFilterLoop, ih, List.filter_cons]
      by_cases h : predicate x
      · simp [h]
      · simp [h]

lemma seqPushLoop_eq (operation : T → R) :
    ∀ (l : List T) (acc : List R),
      seqPushLoop operation acc l = acc ++ l.map operation := by
  intro l
  induction l with
  | nil => intro acc; simp [seqPushLoop]
  | cons x xs ih => intro acc; rw [seqPushLoop, ih]; simp

lemma chunkedResults_eq (operation : T → R) (concurrency : Nat)
    (hc : 1 ≤ concurrency) :
    ∀ l : List T, chunkedResults operation concurrency l = l.map operation := by
  have H : ∀ (n : Nat) (l : List T), l.length ≤ n →
      chunkedResults operation concurrency l = l.map operation := by
    intro n
    induction n with
    | zero =>
        intro l hl
        rw [List.length_eq_zero.mp (Nat.le_zero.mp hl)]
        simp [chunkedResults]
    | succ n ih =>
        intro l hl
        cases l with
        | nil => simp [chunkedResults]
        | cons x xs =>
            rw [chunkedResults, ih (xs.drop (concurrency - 1))
              (by simp only [List.length_drop]; simp at hl; omega)]
            obtain ⟨c, rfl⟩ : ∃ c, concurrency = c + 1 :=
              ⟨concurrency - 1, by omega⟩
            simp only [List.take_succ_cons, Nat.add_sub_cancel, List.map_cons,
              List.cons_append, List.nil_append]
            rw [← List.map_append, List.take_append_drop]
  intro l
  exact H l.length l le_rfl

lemma partition_loop (predicate : T → Bool) :
    ∀ (l t f : List T),
      List.foldl
        (fun acc item =>
          if predicate item then (acc.1 ++ [item], acc.2) else (acc.1, acc.2 ++ [item]))
        (t, f) l
      = (t ++ l.filter predicate, f ++ l.filter fun x => !(predicate x)) := by
  intro l
  induction l with
  | nil => intro t f; simp
  | cons x xs ih =>
      intro t f
      rw [List.foldl_cons]
      by_cases h : predicate x
      · simp only [h, if_true, ih, List.filter_cons, Bool.not_true, if_false]
        simp
      · simp only [h, Bool.false_eq_true, if_false, ih, List.filter_cons,
          Bool.not_false, if_true]
        simp [h]

/-! ### Claim theorems -/

/-- Claim C1: for every source sequence S and every finite list of
operations appended via the map/filter/take/skip/reverse builders,
`Chain::value()` starts from S and applies the operations strictly in
append order, where map is order- and length-preserving (element i
becomes f(element i)), filter keeps exactly the predicate-true elements
in original relative order, take(n) keeps the first min(n, len) elements,
skip(n) drops the first min(n, len) elements, and reverse reverses the
current order; no reordering or fusion occurs (the fold visits the
operations one at a time, left to right). -/
theorem chain_value_applies_spec_steps_in_append_order
    (S : List T) (ops : List (Operation T)) :
    (buildChain S ops).value = ops.foldl specStep S := by
  rw [buildChain_eq]
  exact List.foldl_ext _ _ S fun a op _ => applyOp_eq_specStep a op

/-- Claim C2, counterexample: at the spec's own instance S=[1,2,3,4,5],
p = is-even, f = (x*3), both composition orders evaluate to [6,12] —
multiplying by 3 preserves evenness — so the claimed "different result"
for map-then-filter is false here. -/
theorem filter_map_vs_map_filter_same_at_spec_instance :
    (((chain [1, 2, 3, 4, 5]).filter (fun x => x % 2 == 0)).map (fun x => x * 3)).value
        = [6, 12] ∧
    (((chain [1, 2, 3, 4, 5]).map (fun x => x * 3)).filter (fun x => x % 2 == 0)).value
        = [6, 12] := by
  exact ⟨rfl, rfl⟩

/-- Claim C2, amended: composition order matters in general when f
changes the predicate's truth value — for S=[1,2,3,4,5], p = is-even,
f = (x+1), filter-then-map gives [3,5] while map-then-filter gives
[2,4,6], which differ — but the spec's instance f = (x*3) preserves
evenness, so there both orders give [6,12]. -/
theorem filter_map_order_matters_amended :
    (((chain [1, 2, 3, 4, 5]).filter (fun x => x % 2 == 0)).map (fun x => x + 1)).value
        = [3, 5] ∧
    (((chain [1, 2, 3, 4, 5]).map (fun x => x + 1)).filter (fun x => x % 2 == 0)).value
        = [2, 4, 6] ∧
    (((chain [1, 2, 3, 4, 5]).filter (fun x => x % 2 == 0)).map (fun x => x + 1)).value
        ≠ (((chain [1, 2, 3, 4, 5]).map (fun x => x + 1)).filter (fun x => x % 2 == 0)).value
      ∧
    (((chain [1, 2, 3, 4, 5]).filter (fun x => x % 2 == 0)).map (fun x => x * 3)).value
        = (((chain [1, 2, 3, 4, 5]).map (fun x => x * 3)).filter (fun x => x % 2 == 0)).value := by
  refine ⟨rfl, rfl, ?_, rfl⟩
  decide

/-- Claim C3: an async chain built from S with two sequential async map
steps, evaluated by the terminal await (operations in append order, each
element awaited to completion before the next), yields exactly the output
of the synchronous chain applying the same two transformations in the
same order. -/
theorem async_two_maps_matches_sync (S : List T) (f g : T → T) :
    (((AsyncChain.new S).map_async f).map_async g).awaitRun
      = (((Chain.new S).map f).map g).value := by
  simp [AsyncChain.awaitRun, AsyncChain.new, AsyncChain.map_async,
    Chain.value, Chain.new, Chain.map, applyAsyncOp, applyOp, awaitMapLoop_eq]

/-- Claim C4: `execute_with_concurrency` returns the invalid-input error
exactly when the concurrency limit is 0, and for every nonzero
concurrency returns Ok with the operation applied to each element in
original order — the same output as `execute_sequential`. -/
theorem execute_with_concurrency_spec
    (items : List T) (operation : T → R) (concurrency : Nat) :
    execute_with_concurrency items operation concurrency
      = (if concurrency = 0 then
          Except.error (LodashError.invalidInput "Concurrency must be greater than 0")
        else Except.ok (items.map operation)) ∧
    execute_sequential items operation = Except.ok (items.map operation) := by
  constructor
  · unfold execute_with_concurrency
    by_cases h : concurrency = 0
    · simp [h, LodashError.invalid_input]
    · simp only [h, if_false]
      rw [chunkedResults_eq operation concurrency (by omega)]
  · unfold execute_sequential
    rw [seqPushLoop_eq]
    simp

/-- Claim C5: `chain(S).take(n).value()` is the prefix of S of length
min(n, len S) and `chain(S).skip(n).value()` is the suffix from index
min(n, len S); both are total for every n. -/
theorem chain_take_skip_spec (S : List T) (n : Nat) :
    ((chain S).take n).value = S.take (min n S.length) ∧
    ((chain S).skip n).value = S.drop (min n S.length) := by
  constructor
  · show S.take n = S.take (min n S.length)
    exact (take_min_eq S n).symm
  · show S.drop n = S.drop (min n S.length)
    exact (drop_min_eq S n).symm

/-- Claim C6: `chain(S).reverse().value()` is S reversed, and appending
reverse twice is the identity (reverse is an involution). -/
theorem chain_reverse_involution (S : List T) :
    ((chain S).reverse).value = S.reverse ∧
    (((chain S).reverse).reverse).value = S := by
  constructor
  · rfl
  · show S.reverse.reverse = S
    exact List.reverse_reverse S

/-- Claim C7: a chain built from the empty sequence with a map step then
a filter step evaluates to the empty sequence, whatever f and p are. -/
theorem chain_empty_map_filter (f : T → T) (p : T → Bool) :
    (((chain ([] : List T)).map f).filter p).value = [] := by
  rfl

/-- Claim C8: for every chain, `ChainExecutor::new(chain).execute()`
returns exactly `chain.value()`: the executor's retain-based filter
branch agrees with value()'s rebuild-based filter, and all other
branches coincide. -/
theorem executor_execute_eq_value (c : Chain T) :
    (ChainExecutor.new c).execute = c.value := by
  exact List.foldl_ext _ _ c.data fun a op _ => execApplyOp_eq a op

/-- Claim C9: on the empty collection `every` is vacuously true and
`some` is false; in general `every(S, p)` holds iff all elements of S
satisfy p, and `some(S, p)` holds iff at least one element does. -/
theorem every_some_spec (S : List T) (p : T → Bool) :
    every ([] : List T) p = true ∧
    some ([] : List T) p = false ∧
    (every S p = true ↔ ∀ x ∈ S, p x = true) ∧
    (some S p = true ↔ ∃ x ∈ S, p x = true) := by
  refine ⟨rfl, rfl, ?_, ?_⟩
  · simp [every, List.all_eq_true]
  · simp [some, List.any_eq_true]

/-- Claim C10: `partition(S, p)` returns the pair of the predicate-true
elements (equal to `filter(S, p)`) and the predicate-false elements, both
in original relative order; the lengths sum to len(S) and the two parts
together are a permutation of S (every element exactly once). -/
theorem partition_spec (S : List T) (p : T → Bool) :
    (partition S p).1 = filter S p ∧
    (partition S p).2 = S.filter (fun x => !(p x)) ∧
    (partition S p).1.length + (partition S p).2.length = S.length ∧
    ((partition S p).1 ++ (partition S p).2).Perm S := by
  have h : partition S p = (S.filter p, S.filter fun x => !(p x)) := by
    unfold partition
    rw [partition_loop]
    simp
  have hperm : (S.filter p ++ S.filter fun x => !(p x)).Perm S :=
    List.filter_append_perm p S
  refine ⟨by rw [h]; rfl, by rw [h], ?_, ?_⟩
  · rw [h]
    simpa [List.length_append] using hperm.length_eq
  · rw [h]
    exact hperm

end LodashRs
